import Mathlib

/-!
Verification of the endpoint-classification consumer pipeline.

The development embeds, as executable Lean functions over `List Char`
(Python strings) and explicit HTTP-response values, the pure fragments of
`src/function_app.py` and `src/auth.py`:

* `sanitize_metadata_value` — metadata sanitization (function_app.py 101-114);
* `extract_confidence_score` — confidence parsing (function_app.py 17-37);
* subject-path identity extraction (function_app.py 146-155);
* record-id resolution (function_app.py 200-206, 314);
* `send_to_wmt_api` / `check_record_exists` / `create_wmt_record` /
  `update_wmt_record` — the upsert dispatcher (auth.py 84-223), with the
  network modelled as a pre-decided response for each possible call and the
  calls actually issued recorded in a trace.
-/

/- ===================== Python string helpers ===================== -/

/-- Python `str.split()` whitespace: the ASCII whitespace characters.
(Python also splits on non-ASCII unicode whitespace, but every call site in
the source splits strings already reduced to printable ASCII.) -/
def isPyWhitespace (c : Char) : Bool :=
  c == ' ' || c == '\t' || c == '\n' || c == '\r' || c == '\x0b' || c == '\x0c'

/-- Split a string into the segments between separator characters, keeping
empty segments — the semantics of Python `str.split(sep)` for a one-character
separator, and the common core of `str.split()`. -/
def splitBy (p : Char → Bool) : List Char → List (List Char)
  | [] => [[]]
  | c :: cs =>
    if p c then [] :: splitBy p cs
    else
      match splitBy p cs with
      | [] => [[c]]
      | t :: ts => (c :: t) :: ts

/-- Python `str.split()` (no argument): split on whitespace runs, dropping
empty segments. -/
def pySplit (l : List Char) : List (List Char) :=
  (splitBy isPyWhitespace l).filter (fun t => !t.isEmpty)

/-- Python `sep.join(parts)` for a one-character separator. -/
def joinWith (sep : Char) : List (List Char) → List Char
  | [] => []
  | [t] => t
  | t :: ts => t ++ sep :: joinWith sep ts

/-- Python `str.isspace()` for one character: the 29 code points CPython's
Unicode database classifies as whitespace. `str.strip()` removes exactly
these from both ends. -/
def pythonIsSpace (c : Char) : Bool :=
  (decide (9 ≤ c.toNat) && decide (c.toNat ≤ 13)) ||
  (decide (28 ≤ c.toNat) && decide (c.toNat ≤ 32)) ||
  decide (c.toNat = 133) || decide (c.toNat = 160) || decide (c.toNat = 5760) ||
  (decide (8192 ≤ c.toNat) && decide (c.toNat ≤ 8202)) ||
  decide (c.toNat = 8232) || decide (c.toNat = 8233) ||
  decide (c.toNat = 8239) || decide (c.toNat = 8287) || decide (c.toNat = 12288)

/-- The whitespace `int()` itself strips around the numeral: the
`str.isspace()` characters except U+001C-U+001F, which `int()` rejects. -/
def intIsSpace (c : Char) : Bool :=
  (decide (9 ≤ c.toNat) && decide (c.toNat ≤ 13)) || decide (c.toNat = 32) ||
  decide (c.toNat = 133) || decide (c.toNat = 160) || decide (c.toNat = 5760) ||
  (decide (8192 ≤ c.toNat) && decide (c.toNat ≤ 8202)) ||
  decide (c.toNat = 8232) || decide (c.toNat = 8233) ||
  decide (c.toNat = 8239) || decide (c.toNat = 8287) || decide (c.toNat = 12288)

/-- Python `str.strip()` (no argument): remove leading and trailing
`str.isspace()` characters. -/
def pyStrip (l : List Char) : List Char :=
  ((l.dropWhile pythonIsSpace).reverse.dropWhile pythonIsSpace).reverse

/-- An ASCII decimal digit `'0'`-`'9'`. -/
def isAsciiDigit (c : Char) : Bool := decide (48 ≤ c.toNat) && decide (c.toNat ≤ 57)

/-- First code points of the 66 runs of Unicode decimal digits (category Nd).
Every Nd character sits in one run of ten consecutive code points carrying
digit values 0-9; these are exactly the digit characters `int()` accepts. -/
def ndRangeStarts : List Nat :=
  [48, 1632, 1776, 1984, 2406, 2534, 2662, 2790, 2918, 3046, 3174, 3302, 3430,
   3558, 3664, 3792, 3872, 4160, 4240, 6112, 6160, 6470, 6608, 6784, 6800,
   6992, 7088, 7232, 7248, 42528, 43216, 43264, 43472, 43504, 43600, 44016,
   65296, 66720, 68912, 69734, 69872, 69942, 70096, 70384, 70736, 70864, 71248,
   71360, 71472, 71904, 72016, 72784, 73040, 73120, 92768, 92864, 93008,
   120782, 120792, 120802, 120812, 120822, 123200, 123632, 125264, 130032]

/-- Decimal value of a Unicode decimal digit (category Nd), `none` for any
other character. -/
def decDigitVal? (c : Char) : Option Nat :=
  (ndRangeStarts.find? fun s => decide (s ≤ c.toNat) && decide (c.toNat ≤ s + 9)).map
    fun s => c.toNat - s

/-- The 128 code points on which Python `str.isdigit()` is true beyond
category Nd (Numeric_Type=Digit: superscript, subscript, circled and similar
digit characters). `str.isdigit()` accepts them but `int()` rejects them. -/
def isdigitExtra : List Nat :=
  [178, 179, 185, 4969, 4970, 4971, 4972, 4973, 4974, 4975, 4976, 4977, 6618,
   8304, 8308, 8309, 8310, 8311, 8312, 8313, 8320, 8321, 8322, 8323, 8324,
   8325, 8326, 8327, 8328, 8329, 9312, 9313, 9314, 9315, 9316, 9317, 9318,
   9319, 9320, 9332, 9333, 9334, 9335, 9336, 9337, 9338, 9339, 9340, 9352,
   9353, 9354, 9355, 9356, 9357, 9358, 9359, 9360, 9450, 9461, 9462, 9463,
   9464, 9465, 9466, 9467, 9468, 9469, 9471, 10102, 10103, 10104, 10105, 10106,
   10107, 10108, 10109, 10110, 10112, 10113, 10114, 10115, 10116, 10117, 10118,
   10119, 10120, 10122, 10123, 10124, 10125, 10126, 10127, 10128, 10129, 10130,
   68160, 68161, 68162, 68163, 69216, 69217, 69218, 69219, 69220, 69221, 69222,
   69223, 69224, 69714, 69715, 69716, 69717, 69718, 69719, 69720, 69721, 69722,
   127232, 127233, 127234, 127235, 127236, 127237, 127238, 127239, 127240,
   127241, 127242]

/-- Python `str.isdigit()` for one character: a decimal digit (Nd) or one of
the extra digit characters. -/
def pyCharIsDigit (c : Char) : Bool :=
  (decDigitVal? c).isSome || isdigitExtra.contains c.toNat

/-- Python `str.isdigit()`: nonempty and every character a digit. -/
def pyIsdigit (l : List Char) : Bool := !l.isEmpty && l.all pyCharIsDigit

/-- Numeric value of an ASCII digit string. -/
def digitsToNat (l : List Char) : Nat :=
  l.foldl (fun n c => 10 * n + (c.toNat - 48)) 0

/-- Digit run of an `int()` literal after the optional sign: Unicode decimal
digits with single underscores allowed between digits (PEP 515); `acc` is the
value already parsed, `none` models `ValueError`. -/
def parseUDigitsGo (acc : Nat) : List Char → Option Nat
  | [] => some acc
  | c :: rest =>
    if c == '_' then
      match rest with
      | [] => none
      | c2 :: rest2 =>
        match decDigitVal? c2 with
        | some d => parseUDigitsGo (10 * acc + d) rest2
        | none => none
    else
      match decDigitVal? c with
      | some d => parseUDigitsGo (10 * acc + d) rest
      | none => none

/-- One or more digits with underscore grouping: no leading, trailing or
doubled underscore, as `int()` requires. -/
def parseUDigits : List Char → Option Nat
  | [] => none
  | c :: rest =>
    match decDigitVal? c with
    | some d => parseUDigitsGo d rest
    | none => none

/-- The stripping `int()` performs while parsing. -/
def intStrip (l : List Char) : List Char :=
  ((l.dropWhile intIsSpace).reverse.dropWhile intIsSpace).reverse

/-- Python `int(s)` on a decimal string: strip the whitespace `int()`
accepts, an optional sign, then Unicode decimal digits with underscore
grouping; `none` models `ValueError` (raised e.g. on `"²"`, which
`str.isdigit()` accepts but `int()` rejects). -/
def pyInt (l : List Char) : Option Int :=
  match intStrip l with
  | '+' :: ds => (parseUDigits ds).map fun n => (n : Int)
  | '-' :: ds => (parseUDigits ds).map fun n => -(n : Int)
  | ds => (parseUDigits ds).map fun n => (n : Int)

/- ===================== sanitize_metadata_value ===================== -/

/-- The character filter on line 107 of function_app.py:
`ord(char) >= 32 and ord(char) < 127`. -/
def isPrintableAscii (c : Char) : Bool :=
  decide (32 ≤ c.toNat) && decide (c.toNat < 127)

/-- Line 107: `''.join(char for char in sanitized if ord(char) >= 32 and ord(char) < 127)`. -/
def filterPrintable (l : List Char) : List Char := l.filter isPrintableAscii

/-- Line 108: `sanitized.replace('\n', ' ').replace('\r', ' ').replace('\t', ' ')`
(three successive single-character replacements). -/
def replaceWs (l : List Char) : List Char :=
  (((l.map fun c => if c == '\n' then ' ' else c).map
      fun c => if c == '\r' then ' ' else c).map
    fun c => if c == '\t' then ' ' else c)

/-- Line 109: `' '.join(sanitized.split())`. -/
def collapseWs (l : List Char) : List Char := joinWith ' ' (pySplit l)

/-- `sanitize_metadata_value` (function_app.py 101-114), on string input.
`if not value` is the string emptiness test; the truncation bound on lines
111-112 is hard-coded 250/247 in the source. -/
def sanitize_metadata_value (l : List Char) : List Char :=
  if l.isEmpty then []
  else
    let s1 := filterPrintable l
    let s2 := replaceWs s1
    let s3 := collapseWs s2
    if s3.length > 250 then s3.take 247 ++ ['.', '.', '.'] else s3

/-- Adjacency invariant of a whitespace-collapsed string: a whitespace
character is a single `' '` and is never followed by whitespace. -/
def WsRel (a b : Char) : Prop := isPyWhitespace a = true → a = ' ' ∧ isPyWhitespace b = false

/-- The strings `' '.join(s.split())` leaves unchanged: no leading or
trailing whitespace and `WsRel` between adjacent characters. -/
structure Canon (l : List Char) : Prop where
  headOk : ∀ c ∈ l.head?, isPyWhitespace c = false
  lastOk : ∀ c ∈ l.getLast?, isPyWhitespace c = false
  pairs : l.Chain' WsRel

/- ===================== extract_confidence_score ===================== -/

/-- `extract_confidence_score` (function_app.py 17-37). The input is an
`Option (List Char)`: `none` models Python `None` (falsy, so the first guard
returns 0 before any method call). The `try/except (ValueError, ...)` around
`int(...)` is the `Option.getD 0` on `pyInt`. Total by construction. -/
def extract_confidence_score : Option (List Char) → Int
  | none => 0
  | some s =>
    if s.isEmpty || s == "N/A".toList then 0
    else if s.contains '/' then
      (pyInt (pyStrip (s.takeWhile (fun c => !(c == '/'))))).getD 0
    else if pyIsdigit s then
      (pyInt s).getD 0
    else 0

/- ===================== subject-path identity extraction ===================== -/

/-- Container/blob-name extraction from the CloudEvent `subject`
(function_app.py 142-155): split on `/`, the segment after the literal
`containers` token is the container, the segments after the literal `blobs`
token rejoined with `/` are the blob name; both default to the empty string. -/
def extract_from_subject (subject : List Char) : List Char × List Char :=
  if subject.isEmpty then ([], [])
  else
    let parts := splitBy (fun c => c == '/') subject
    if parts.contains "containers".toList && parts.contains "blobs".toList then
      let ci := parts.findIdx (fun t => t == "containers".toList) + 1
      let bi := parts.findIdx (fun t => t == "blobs".toList) + 1
      let container := if ci < parts.length then parts.getD ci [] else []
      let blob := if bi < parts.length then joinWith '/' (parts.drop bi) else []
      (container, blob)
    else ([], [])

/- ===================== record-id resolution ===================== -/

/-- The metadata half of file-id resolution (function_app.py 200-203):
`file_id = blob_metadata.get('file_id', '')` guarded by `if blob_metadata:`
(both `None` and the empty dict are falsy). -/
def meta_file_id : Option (List (String × String)) → String
  | none => ""
  | some m => if m.isEmpty then "" else (m.lookup "file_id").getD ""

/-- File-id resolution (function_app.py 200-206): metadata value if truthy,
else `cloud_event.get('id', '')`. -/
def resolved_file_id (bm : Option (List (String × String))) (eid : Option String) : String :=
  if meta_file_id bm = "" then eid.getD "" else meta_file_id bm

/-- The guard on the WMT upsert block (function_app.py 314 and 353):
`if file_id and Config.TRANSACTION_URL:` and, inside,
`if auth_helper.is_authenticated():`. -/
def wmt_attempted (file_id : String) (transaction_url : String) (authed : Bool) : Bool :=
  !(file_id == "") && !(transaction_url == "") && authed

/- ===================== the upsert dispatcher (auth.py) ===================== -/

/-- Outcome of one HTTP request: a status code, or one of the two caught
request failures (`requests.exceptions.Timeout`, other `RequestException`). -/
inductive HttpResult where
  | status (code : Nat)
  | timeout
  | requestError
deriving DecidableEq

/-- The log level a code path emits (used to state the warning behaviour of
`check_record_exists`). -/
inductive LogKind where
  | infoLog
  | warnLog
  | errorLog
deriving DecidableEq

/-- One network call `send_to_wmt_api` can issue. -/
inductive ApiCall where
  | checkExists (fid : String)
  | createRecord
  | updateRecord (fid : String)
deriving DecidableEq

def isCreate : ApiCall → Bool
  | .createRecord => true
  | _ => false

def isUpdate : ApiCall → Bool
  | .updateRecord _ => true
  | _ => false

/-- The environment of one `send_to_wmt_api` invocation: the response each of
the three possible requests would receive. -/
structure WmtWorld where
  check : HttpResult
  create : HttpResult
  update : HttpResult
deriving DecidableEq

/-- `AuthHelper.is_authenticated` (auth.py 80-82): `self.token is not None`. -/
def is_authenticated (token : Option String) : Bool := token.isSome

/-- `AuthHelper.check_record_exists` (auth.py 123-157): 200 → true,
404 → false, any other status → false, timeout/request error → false. -/
def check_record_exists : HttpResult → Bool
  | .status c => if c == 200 then true else if c == 404 then false else false
  | .timeout => false
  | .requestError => false

/-- The log line `check_record_exists` emits on each path: info on 200 and
404, `logging.warning` on any other status, `logging.error` on timeout or
request error. -/
def check_record_log : HttpResult → LogKind
  | .status c => if c == 200 then .infoLog else if c == 404 then .infoLog else .warnLog
  | .timeout => .errorLog
  | .requestError => .errorLog

/-- `AuthHelper.create_wmt_record` (auth.py 159-188): success on 200 or 201. -/
def create_wmt_record : HttpResult → Bool
  | .status c => c == 200 || c == 201
  | _ => false

/-- `AuthHelper.update_wmt_record` (auth.py 190-223): success on 200 or 204. -/
def update_wmt_record : HttpResult → Bool
  | .status c => c == 200 || c == 204
  | _ => false

/-- `AuthHelper.send_to_wmt_api` (auth.py 84-121), returning the Python
result together with the trace of network calls issued.
`wmt_payload.get('file_id')` is the `Option String` argument; `if not file_id`
rejects both `none` and the empty string. -/
def send_to_wmt_api (token : Option String) (payload_file_id : Option String)
    (w : WmtWorld) : Bool × List ApiCall :=
  if !(is_authenticated token) then (false, [])
  else
    match payload_file_id with
    | none => (false, [])
    | some fid =>
      if fid == "" then (false, [])
      else if check_record_exists w.check then
        (update_wmt_record w.update, [.checkExists fid, .updateRecord fid])
      else
        (create_wmt_record w.create, [.checkExists fid, .createRecord])

/- ===================== claim theorems: dispatcher ===================== -/

/-- C1: on an authenticated session with a payload carrying a record id,
`send_to_wmt_api` issues exactly one update and no create when the existence
check returns true, exactly one create and no update when it returns false,
and in every case exactly one of the two — never both, never a retry. -/
theorem upsert_routing (token : Option String) (fid : String) (w : WmtWorld)
    (hauth : is_authenticated token = true) (hfid : fid ≠ "") :
    (check_record_exists w.check = true →
      ((send_to_wmt_api token (some fid) w).2.countP isUpdate = 1 ∧
       (send_to_wmt_api token (some fid) w).2.countP isCreate = 0)) ∧
    (check_record_exists w.check = false →
      ((send_to_wmt_api token (some fid) w).2.countP isCreate = 1 ∧
       (send_to_wmt_api token (some fid) w).2.countP isUpdate = 0)) ∧
    (send_to_wmt_api token (some fid) w).2.countP isCreate +
      (send_to_wmt_api token (some fid) w).2.countP isUpdate = 1 := by
  have hfid' : (fid == "") = false := beq_eq_false_iff_ne.mpr hfid
  cases h : check_record_exists w.check <;>
    simp [send_to_wmt_api, hauth, hfid', h, List.countP_cons, isCreate, isUpdate]

/-- Witness for C1 at a concrete authenticated session and payload. -/
theorem upsert_routing_witness :
    (check_record_exists (HttpResult.status 200) = true →
      ((send_to_wmt_api (some "tok") (some "42")
          ⟨HttpResult.status 200, HttpResult.status 201, HttpResult.status 200⟩).2.countP isUpdate = 1 ∧
       (send_to_wmt_api (some "tok") (some "42")
          ⟨HttpResult.status 200, HttpResult.status 201, HttpResult.status 200⟩).2.countP isCreate = 0)) ∧
    (check_record_exists (HttpResult.status 200) = false →
      ((send_to_wmt_api (some "tok") (some "42")
          ⟨HttpResult.status 200, HttpResult.status 201, HttpResult.status 200⟩).2.countP isCreate = 1 ∧
       (send_to_wmt_api (some "tok") (some "42")
          ⟨HttpResult.status 200, HttpResult.status 201, HttpResult.status 200⟩).2.countP isUpdate = 0)) ∧
    (send_to_wmt_api (some "tok") (some "42")
        ⟨HttpResult.status 200, HttpResult.status 201, HttpResult.status 200⟩).2.countP isCreate +
      (send_to_wmt_api (some "tok") (some "42")
        ⟨HttpResult.status 200, HttpResult.status 201, HttpResult.status 200⟩).2.countP isUpdate = 1 :=
  upsert_routing (some "tok") "42" ⟨HttpResult.status 200, HttpResult.status 201, HttpResult.status 200⟩
    rfl (by decide)

/-- C3 counterexample: 201 is a 2xx status, yet `check_record_exists` returns
false for it (the code tests for exactly 200). -/
theorem check_exists_2xx_cex :
    200 ≤ 201 ∧ 201 < 300 ∧ check_record_exists (HttpResult.status 201) = false := by
  decide

/-- C3 amended: `check_record_exists` returns true exactly for status 200;
404 yields false; any other status yields false with a warning; a timeout or
request error yields false with an error log; it never raises (it is total). -/
theorem check_exists_routing (r : HttpResult) :
    (check_record_exists r = true ↔ r = HttpResult.status 200) ∧
    (r = HttpResult.timeout ∨ r = HttpResult.requestError → check_record_exists r = false) ∧
    (∀ c : Nat, r = HttpResult.status c → c ≠ 200 → c ≠ 404 →
      check_record_exists r = false ∧ check_record_log r = LogKind.warnLog) := by
  cases r with
  | status c =>
    refine ⟨?_, by intro h; rcases h with h | h <;> exact absurd h (by simp), ?_⟩
    · by_cases h200 : c = 200
      · subst h200; simp [check_record_exists]
      · by_cases h404 : c = 404 <;>
          simp [check_record_exists, h200, h404]
    · intro c' hc' h200 h404
      cases hc'
      simp [check_record_exists, check_record_log, h200, h404]
  | timeout => simp [check_record_exists]
  | requestError => simp [check_record_exists]

/-- C5: with no token held, `send_to_wmt_api` returns failure without issuing
any network call — no existence check, no create, no update. -/
theorem unauthenticated_no_calls (token : Option String) (pfid : Option String)
    (w : WmtWorld) (h : is_authenticated token = false) :
    send_to_wmt_api token pfid w = (false, []) := by
  simp [send_to_wmt_api, h]

/-- Witness for C5 at a concrete unauthenticated session. -/
theorem unauthenticated_no_calls_witness :
    send_to_wmt_api none (some "42")
      ⟨HttpResult.status 200, HttpResult.status 200, HttpResult.status 200⟩ = (false, []) :=
  unauthenticated_no_calls none (some "42")
    ⟨HttpResult.status 200, HttpResult.status 200, HttpResult.status 200⟩ rfl

/-- C6: the record id is the metadata `file_id` when that is truthy, else the
event id; the metadata value is the one its lookup carries; and when both are
absent the resolved id is empty and the WMT upsert block is not entered at
all (so no call with a synthetic id is attempted). -/
theorem record_id_resolution (bm : Option (List (String × String))) (eid : Option String)
    (url : String) (authed : Bool) :
    (meta_file_id bm ≠ "" → resolved_file_id bm eid = meta_file_id bm) ∧
    (∀ m v, bm = some m → m.lookup "file_id" = some v → v ≠ "" →
      resolved_file_id bm eid = v) ∧
    (meta_file_id bm = "" → resolved_file_id bm eid = eid.getD "") ∧
    (meta_file_id bm = "" → eid.getD "" = "" →
      resolved_file_id bm eid = "" ∧
      wmt_attempted (resolved_file_id bm eid) url authed = false) := by
  refine ⟨?_, ?_, ?_, ?_⟩
  · intro h
    simp [resolved_file_id, h]
  · intro m v hbm hv hne
    have hm : m ≠ [] := by
      intro h; subst h; simp [List.lookup] at hv
    have hmeta : meta_file_id bm = v := by
      subst hbm
      simp [meta_file_id, hm, hv]
    simp [resolved_file_id, hmeta, hne]
  · intro h
    simp [resolved_file_id, h]
  · intro h he
    have : resolved_file_id bm eid = "" := by simp [resolved_file_id, h, he]
    exact ⟨this, by simp [this, wmt_attempted]⟩

/- ===================== claim theorems: string functions ===================== -/

/-- C2 (code bug): on the literal test input the code returns
`"Text withnewlinesandtabs"` — the printable-ASCII filter on line 107 deletes
the newline/CR/tab characters before the replacements on line 108 could turn
them into spaces — while the repo's own test suite expects
`"Text with newlines and tabs"`. -/
theorem sanitize_newline_eval :
    sanitize_metadata_value "Text with\nnewlines\rand\ttabs".toList
      = "Text withnewlinesandtabs".toList ∧
    "Text withnewlinesandtabs".toList ≠ "Text with newlines and tabs".toList := by
  decide

set_option maxRecDepth 8000 in
/-- C4 counterexample: an input of 251 newline characters is longer than 250
characters, yet its sanitized form is empty and does not end with `"..."` —
the truncation test applies to the sanitized value, not the input. -/
theorem sanitize_truncation_cex :
    (List.replicate 251 '\x0a').length > 250 ∧
    sanitize_metadata_value (List.replicate 251 '\x0a') = [] ∧
    List.isSuffixOf ['.', '.', '.'] (sanitize_metadata_value (List.replicate 251 '\x0a'))
      = false := by
  decide

/-- C9: structured-path identity extraction on the literal subject yields
container `"stampedstorage"` and key `"folder/file.pdf"`, the `/` inside the
key preserved. -/
theorem subject_extraction_literal :
    extract_from_subject
      "/blobServices/default/containers/stampedstorage/blobs/folder/file.pdf".toList
      = ("stampedstorage".toList, "folder/file.pdf".toList) := by
  decide

/- ===================== claim theorems: extract_confidence_score ===================== -/

theorem digit_not_space {c : Char} (h : isAsciiDigit c = true) :
    pythonIsSpace c = false := by
  simp only [isAsciiDigit, Bool.and_eq_true, decide_eq_true_eq] at h
  simp only [pythonIsSpace, Bool.or_eq_false_iff, Bool.and_eq_false_iff,
    decide_eq_false_iff_not]
  omega

theorem digit_not_intspace {c : Char} (h : isAsciiDigit c = true) :
    intIsSpace c = false := by
  simp only [isAsciiDigit, Bool.and_eq_true, decide_eq_true_eq] at h
  simp only [intIsSpace, Bool.or_eq_false_iff, Bool.and_eq_false_iff,
    decide_eq_false_iff_not]
  omega

theorem pyStrip_eq_self {l : List Char} (h : ∀ c ∈ l, pythonIsSpace c = false) :
    pyStrip l = l := by
  have h1 : l.dropWhile pythonIsSpace = l := by
    cases l with
    | nil => rfl
    | cons c cs => simp [List.dropWhile_cons, h c (by simp)]
  have h2 : l.reverse.dropWhile pythonIsSpace = l.reverse := by
    cases hr : l.reverse with
    | nil => rfl
    | cons c cs =>
      have hc : c ∈ l := by
        rw [← List.mem_reverse, hr]
        simp
      simp [List.dropWhile_cons, h c hc]
  rw [pyStrip, h1, h2, List.reverse_reverse]

theorem intStrip_eq_self {l : List Char} (h : ∀ c ∈ l, intIsSpace c = false) :
    intStrip l = l := by
  have h1 : l.dropWhile intIsSpace = l := by
    cases l with
    | nil => rfl
    | cons c cs => simp [List.dropWhile_cons, h c (by simp)]
  have h2 : l.reverse.dropWhile intIsSpace = l.reverse := by
    cases hr : l.reverse with
    | nil => rfl
    | cons c cs =>
      have hc : c ∈ l := by
        rw [← List.mem_reverse, hr]
        simp
      simp [List.dropWhile_cons, h c hc]
  rw [intStrip, h1, h2, List.reverse_reverse]

/-- On an ASCII digit the Nd lookup hits the first range, `[48, 57]`. -/
theorem isAsciiDigit_decDigitVal {c : Char} (h : isAsciiDigit c = true) :
    decDigitVal? c = some (c.toNat - 48) := by
  simp only [isAsciiDigit, Bool.and_eq_true, decide_eq_true_eq] at h
  unfold decDigitVal? ndRangeStarts
  rw [List.find?_cons_of_pos]
  · rfl
  · simp only [Bool.and_eq_true, decide_eq_true_eq]
    omega

theorem digit_ne_underscore {c : Char} (h : isAsciiDigit c = true) :
    (c == '_') = false := by
  refine beq_eq_false_iff_ne.mpr ?_
  intro he
  subst he
  exact absurd h (by decide)

theorem parseUDigitsGo_digits (acc : Nat) (l : List Char)
    (h : ∀ c ∈ l, isAsciiDigit c = true) :
    parseUDigitsGo acc l
      = some (l.foldl (fun n c => 10 * n + (c.toNat - 48)) acc) := by
  induction l generalizing acc with
  | nil => rfl
  | cons c cs ih =>
    have hc := h c (List.mem_cons_self c cs)
    have hne : ¬ ((c == '_') = true) := by
      rw [digit_ne_underscore hc]
      exact Bool.false_ne_true
    conv_lhs => unfold parseUDigitsGo
    rw [if_neg hne, isAsciiDigit_decDigitVal hc, List.foldl_cons]
    exact ih _ fun b hb => h b (List.mem_cons_of_mem c hb)

theorem parseUDigits_digits {l : List Char} (hne : l ≠ [])
    (h : ∀ c ∈ l, isAsciiDigit c = true) :
    parseUDigits l = some (digitsToNat l) := by
  cases l with
  | nil => exact absurd rfl hne
  | cons c cs =>
    have hc := h c (List.mem_cons_self c cs)
    show (match decDigitVal? c with
          | some d => parseUDigitsGo d cs
          | none => none) = some (digitsToNat (c :: cs))
    rw [isAsciiDigit_decDigitVal hc]
    have hGo := parseUDigitsGo_digits (c.toNat - 48) cs
      fun b hb => h b (List.mem_cons_of_mem c hb)
    refine hGo.trans ?_
    unfold digitsToNat
    rw [List.foldl_cons]
    have e : 10 * 0 + (c.toNat - 48) = c.toNat - 48 := by omega
    rw [e]

theorem pyIsdigit_of_ascii {l : List Char} (hne : l ≠ [])
    (h : ∀ c ∈ l, isAsciiDigit c = true) : pyIsdigit l = true := by
  have h1 : l.isEmpty = false := by
    cases l with
    | nil => exact absurd rfl hne
    | cons c cs => rfl
  simp only [pyIsdigit, h1, Bool.not_false, Bool.true_and, List.all_eq_true]
  intro c hc
  simp only [pyCharIsDigit, Bool.or_eq_true]
  left
  rw [isAsciiDigit_decDigitVal (h c hc)]
  rfl

/-- `int(s)` succeeds with the numeric value on a pure ASCII digit string. -/
theorem pyInt_digits {l : List Char} (hne : l ≠ [])
    (h : ∀ c ∈ l, isAsciiDigit c = true) :
    pyInt l = some ((digitsToNat l : Nat) : Int) := by
  have hstrip : intStrip l = l :=
    intStrip_eq_self fun c hc => digit_not_intspace (h c hc)
  unfold pyInt
  rw [hstrip]
  cases l with
  | nil => exact absurd rfl hne
  | cons c cs =>
    have hc := h c (List.mem_cons_self c cs)
    split
    · rename_i ds heq
      rw [List.cons.injEq] at heq
      rw [heq.1] at hc
      exact absurd hc (by decide)
    · rename_i ds heq
      rw [List.cons.injEq] at heq
      rw [heq.1] at hc
      exact absurd hc (by decide)
    · rw [parseUDigits_digits hne h]
      rfl

/-- C10: `extract_confidence_score` is total (a Lean function returning an
integer on every input, `None` and the empty string included): it returns 0
on `None`, the empty string and `"N/A"`; on a string containing `'/'` it
returns `int()` of the stripped prefix before the first `'/'` (0 when that
prefix is unparseable); on a digit string (Python `str.isdigit()`) it returns
`int()` of the string — the numeric value for an ASCII digit string, and 0
for the isdigit-true characters `int()` rejects (e.g. `"²"`), which fall
under the claim's unparseable-yields-0 clause; on any other string it
returns 0. -/
theorem extract_confidence_total (v : Option (List Char)) :
    (v = none ∨ v = some [] ∨ v = some "N/A".toList → extract_confidence_score v = 0) ∧
    (∀ s, v = some s → s ≠ [] → s ≠ "N/A".toList → s.contains '/' = true →
      extract_confidence_score v
        = (pyInt (pyStrip (s.takeWhile fun c => !(c == '/')))).getD 0) ∧
    (∀ s, v = some s → s.contains '/' = false → pyIsdigit s = true →
      extract_confidence_score v = (pyInt s).getD 0) ∧
    (∀ s, v = some s → s ≠ [] → (∀ c ∈ s, isAsciiDigit c = true) →
      extract_confidence_score v = (digitsToNat s : Int)) ∧
    (∀ s, v = some s → s ≠ [] → s.contains '/' = false → pyIsdigit s = false →
      extract_confidence_score v = 0) := by
  refine ⟨?_, ?_, ?_, ?_, ?_⟩
  · rintro (rfl | rfl | rfl)
    · rfl
    · rfl
    · decide
  · intro s hv hne hnNA hcon
    subst hv
    have hne' : s.isEmpty = false := by
      cases s with
      | nil => exact absurd rfl hne
      | cons c cs => rfl
    have hnNA' : (s == "N/A".toList) = false := beq_eq_false_iff_ne.mpr hnNA
    have hnl : ¬ s = ['N', '/', 'A'] := fun h => hnNA (h.trans rfl)
    have hmem : '/' ∈ s := by simpa using hcon
    simp [extract_confidence_score, hne', hnNA', hnl, hmem]
  · intro s hv hcon hdig
    subst hv
    have hparts := hdig
    simp only [pyIsdigit, Bool.and_eq_true, Bool.not_eq_true', List.all_eq_true] at hparts
    obtain ⟨hne', _⟩ := hparts
    have hnmem : ¬ '/' ∈ s := by simpa using hcon
    have hnl : ¬ s = ['N', '/', 'A'] := by
      intro h
      subst h
      exact hnmem (by decide)
    simp [extract_confidence_score, hne', hnl, hnmem, hdig]
  · intro s hv hne h
    subst hv
    have hne' : s.isEmpty = false := by
      cases s with
      | nil => exact absurd rfl hne
      | cons c cs => rfl
    have hnmem : ¬ '/' ∈ s := fun hm => absurd (h '/' hm) (by decide)
    have hnl : ¬ s = ['N', '/', 'A'] := by
      intro hEq
      subst hEq
      exact hnmem (by decide)
    have hdig := pyIsdigit_of_ascii hne h
    simp [extract_confidence_score, hne', hnl, hnmem, hdig, pyInt_digits hne h]
  · intro s hv hne hcon hdig
    subst hv
    have hne' : s.isEmpty = false := by
      cases s with
      | nil => exact absurd rfl hne
      | cons c cs => rfl
    have hnmem : ¬ '/' ∈ s := by simpa using hcon
    have hnl : ¬ s = ['N', '/', 'A'] := by
      intro h
      subst h
      exact hnmem (by decide)
    simp [extract_confidence_score, hne', hnl, hnmem, hdig]

/-- Underscore-grouped numerals parse as Python's `int()` does:
`extract_confidence_score("1_2/10") = 12`. -/
theorem extract_confidence_underscore_eval :
    extract_confidence_score (some "1_2/10".toList) = 12 := by decide

/-- Arabic-Indic digits (category Nd) parse as Python's `int()` does:
`extract_confidence_score("١٢") = 12`. -/
theorem extract_confidence_arabic_eval :
    extract_confidence_score (some "\u0661\u0662".toList) = 12 := by decide

/-- A superscript digit satisfies `str.isdigit()` but `int()` raises, so the
function returns 0: `extract_confidence_score("²") = 0`. -/
theorem extract_confidence_superscript_eval :
    extract_confidence_score (some "\u00b2".toList) = 0 := by decide

/-- Non-breaking spaces (unicode whitespace) around the numerator are
stripped by `str.strip()` before `int()` parses it:
`extract_confidence_score("\u00a05\u00a0/10") = 5`. -/
theorem extract_confidence_nbsp_eval :
    extract_confidence_score (some "\u00a05\u00a0/10".toList) = 5 := by decide

/- ===================== sanitization lemmas ===================== -/

theorem splitBy_ne_nil (p : Char → Bool) (l : List Char) : splitBy p l ≠ [] := by
  cases l with
  | nil => simp [splitBy]
  | cons c cs =>
    by_cases h : p c
    · simp [splitBy, h]
    · cases hs : splitBy p cs <;> simp [splitBy, h, hs]

theorem mem_splitBy {p : Char → Bool} {l : List Char} {t : List Char}
    (ht : t ∈ splitBy p l) : ∀ c ∈ t, c ∈ l ∧ p c = false := by
  induction l generalizing t with
  | nil =>
    simp [splitBy] at ht
    subst ht
    intro c hc
    cases hc
  | cons a as ih =>
    by_cases h : p a
    · rw [splitBy, if_pos h] at ht
      rcases List.mem_cons.mp ht with h1 | h1
      · subst h1
        intro c hc
        cases hc
      · intro c hc
        exact ⟨List.mem_cons_of_mem a (ih h1 c hc).1, (ih h1 c hc).2⟩
    · rw [splitBy, if_neg h] at ht
      cases hs : splitBy p as with
      | nil => exact absurd hs (splitBy_ne_nil p as)
      | cons u us =>
        rw [hs] at ht
        rcases List.mem_cons.mp ht with h1 | h1
        · subst h1
          intro c hc
          rcases List.mem_cons.mp hc with h2 | h2
          · subst h2
            exact ⟨List.mem_cons_self c as, Bool.eq_false_iff.mpr h⟩
          · have hu : u ∈ splitBy p as := by rw [hs]; exact List.mem_cons_self u us
            exact ⟨List.mem_cons_of_mem a (ih hu c h2).1, (ih hu c h2).2⟩
        · have hu : t ∈ splitBy p as := by rw [hs]; exact List.mem_cons_of_mem u h1
          intro c hc
          exact ⟨List.mem_cons_of_mem a (ih hu c hc).1, (ih hu c hc).2⟩

theorem splitBy_all_nonsep {p : Char → Bool} {l : List Char}
    (h : ∀ c ∈ l, p c = false) : splitBy p l = [l] := by
  induction l with
  | nil => rfl
  | cons a as ih =>
    have ha : p a = false := h a (List.mem_cons_self a as)
    have has : splitBy p as = [as] := ih fun c hc => h c (List.mem_cons_of_mem a hc)
    simp [splitBy, ha, has]

theorem splitBy_append_sep {p : Char → Bool} {t r : List Char} {d : Char}
    (ht : ∀ c ∈ t, p c = false) (hd : p d = true) :
    splitBy p (t ++ d :: r) = t :: splitBy p r := by
  induction t with
  | nil => simp [splitBy, hd]
  | cons a as ih =>
    have ha : p a = false := ht a (List.mem_cons_self a as)
    have has := ih fun c hc => ht c (List.mem_cons_of_mem a hc)
    simp [splitBy, ha, has]

theorem mem_pySplit {l t : List Char} (ht : t ∈ pySplit l) :
    t ≠ [] ∧ ∀ c ∈ t, c ∈ l ∧ isPyWhitespace c = false := by
  rw [pySplit, List.mem_filter] at ht
  refine ⟨?_, mem_splitBy ht.1⟩
  intro h
  subst h
  simp at ht

theorem pySplit_cons_ne_nil {c : Char} {cs : List Char}
    (hc : isPyWhitespace c = false) : pySplit (c :: cs) ≠ [] := by
  rw [pySplit]
  cases hs : splitBy isPyWhitespace cs with
  | nil => exact absurd hs (splitBy_ne_nil isPyWhitespace cs)
  | cons u us => simp [splitBy, hc, hs]

theorem mem_joinWith {sep : Char} {ts : List (List Char)} {c : Char}
    (hc : c ∈ joinWith sep ts) : c = sep ∨ ∃ t ∈ ts, c ∈ t := by
  induction ts with
  | nil => cases hc
  | cons t ts ih =>
    cases ts with
    | nil =>
      rw [joinWith] at hc
      exact Or.inr ⟨t, List.mem_cons_self t [], hc⟩
    | cons u us =>
      rw [show joinWith sep (t :: u :: us) = t ++ sep :: joinWith sep (u :: us) from rfl] at hc
      rcases List.mem_append.mp hc with h1 | h1
      · exact Or.inr ⟨t, List.mem_cons_self t _, h1⟩
      · rcases List.mem_cons.mp h1 with h2 | h2
        · exact Or.inl h2
        · rcases ih h2 with h3 | ⟨v, hv, hcv⟩
          · exact Or.inl h3
          · exact Or.inr ⟨v, List.mem_cons_of_mem t hv, hcv⟩

theorem mem_collapseWs {l : List Char} {c : Char} (hc : c ∈ collapseWs l) :
    c = ' ' ∨ c ∈ l := by
  rcases mem_joinWith hc with h | ⟨t, ht, hct⟩
  · exact Or.inl h
  · exact Or.inr ((mem_pySplit ht).2 c hct).1

theorem mem_of_head?_mem {l : List Char} {c : Char} (h : c ∈ l.head?) : c ∈ l := by
  cases l with
  | nil => cases h
  | cons a as =>
    have h' : a = c := by simpa using h
    subst h'
    exact List.mem_cons_self a as

theorem mem_of_getLast?_mem {l : List Char} {c : Char} (h : c ∈ l.getLast?) : c ∈ l := by
  obtain ⟨hne, rfl⟩ := List.mem_getLast?_eq_getLast h
  exact List.getLast_mem hne

theorem chain'_of_all_not_ws {l : List Char}
    (h : ∀ c ∈ l, isPyWhitespace c = false) : l.Chain' WsRel := by
  induction l with
  | nil => exact List.chain'_nil
  | cons a as ih =>
    cases as with
    | nil => exact List.chain'_singleton a
    | cons b bs =>
      refine List.chain'_cons.mpr ⟨?_, ih fun c hc => h c (List.mem_cons_of_mem a hc)⟩
      intro hws
      rw [h a (List.mem_cons_self a _)] at hws
      cases hws

theorem canon_nil : Canon [] := by
  refine ⟨?_, ?_, List.chain'_nil⟩ <;> intro c hc <;> cases hc

theorem canon_joinWith {ts : List (List Char)}
    (hts : ∀ t ∈ ts, t ≠ [] ∧ ∀ c ∈ t, isPyWhitespace c = false) :
    Canon (joinWith ' ' ts) := by
  induction ts with
  | nil => exact canon_nil
  | cons t ts ih =>
    obtain ⟨htne, htws⟩ := hts t (List.mem_cons_self t ts)
    cases ts with
    | nil =>
      rw [show joinWith ' ' [t] = t from rfl]
      exact ⟨fun c hc => htws c (mem_of_head?_mem hc),
        fun c hc => htws c (mem_of_getLast?_mem hc), chain'_of_all_not_ws htws⟩
    | cons u us =>
      have ih' := ih fun v hv => hts v (List.mem_cons_of_mem t hv)
      rw [show joinWith ' ' (t :: u :: us) = t ++ ' ' :: joinWith ' ' (u :: us) from rfl]
      have hune : u ≠ [] := (hts u (by simp)).1
      have hJne : joinWith ' ' (u :: us) ≠ [] := by
        cases us with
        | nil => exact hune
        | cons v vs =>
          rw [show joinWith ' ' (u :: v :: vs) = u ++ ' ' :: joinWith ' ' (v :: vs) from rfl]
          simp
      refine ⟨?_, ?_, ?_⟩
      · intro c hc
        rw [List.head?_append] at hc
        cases t with
        | nil => exact absurd rfl htne
        | cons a as =>
          have h' : a = c := by simpa using hc
          subst h'
          exact htws a (List.mem_cons_self a as)
      · intro c hc
        rw [List.getLast?_append] at hc
        cases hJ : joinWith ' ' (u :: us) with
        | nil => exact absurd hJ hJne
        | cons j js =>
          rw [hJ, List.getLast?_cons_cons] at hc
          have hlast : (j :: js).getLast?.isSome := by
            cases hg : (j :: js).getLast? with
            | none => rw [List.getLast?_eq_none_iff] at hg; cases hg
            | some x => rfl
          cases hg : (j :: js).getLast? with
          | none => rw [hg] at hlast; cases hlast
          | some x =>
            rw [hg] at hc
            have h' : x = c := by simpa [Option.or] using hc
            subst h'
            exact ih'.lastOk x (by rw [hJ, hg]; rfl)
      · refine List.chain'_append.mpr ⟨chain'_of_all_not_ws htws, ?_, ?_⟩
        · cases hJ : joinWith ' ' (u :: us) with
          | nil => exact absurd hJ hJne
          | cons j js =>
            refine List.chain'_cons.mpr ⟨?_, hJ ▸ ih'.pairs⟩
            intro _
            exact ⟨rfl, ih'.headOk j (by rw [hJ]; rfl)⟩
        · intro x hx y hy
          intro hws
          rw [htws x (mem_of_getLast?_mem hx)] at hws
          cases hws

theorem canon_collapseWs (l : List Char) : Canon (collapseWs l) := by
  refine canon_joinWith ?_
  intro t ht
  obtain ⟨h1, h2⟩ := mem_pySplit ht
  exact ⟨h1, fun c hc => (h2 c hc).2⟩

theorem ws_eq_space_of_chain {l : List Char} (hch : l.Chain' WsRel)
    (hlast : ∀ c ∈ l.getLast?, isPyWhitespace c = false) :
    ∀ c ∈ l, isPyWhitespace c = true → c = ' ' := by
  induction l with
  | nil => intro c hc; cases hc
  | cons a as ih =>
    intro c hc hws
    cases as with
    | nil =>
      have : c = a := by simpa using hc
      subst this
      rw [hlast c (by rfl)] at hws
      cases hws
    | cons b bs =>
      rcases List.mem_cons.mp hc with h1 | h1
      · subst h1
        exact ((List.chain'_cons.mp hch).1 hws).1
      · exact ih (List.chain'_cons.mp hch).2
          (fun c' hc' => hlast c' (by rw [List.getLast?_cons_cons]; exact hc'))
          c h1 hws

theorem dropWhile_head_not {p : Char → Bool} {l : List Char} {d : Char} {ds : List Char}
    (h : l.dropWhile p = d :: ds) : p d = false := by
  induction l with
  | nil => cases h
  | cons a as ih =>
    rw [List.dropWhile_cons] at h
    by_cases hp : p a
    · rw [if_pos hp] at h
      exact ih h
    · rw [if_neg hp] at h
      injection h with h1 _
      subst h1
      exact Bool.eq_false_iff.mpr hp

theorem canon_collapse_eq_aux :
    ∀ n : Nat, ∀ l : List Char, l.length ≤ n → Canon l → collapseWs l = l := by
  intro n
  induction n with
  | zero =>
    intro l hl _
    have h0 : l = [] := List.eq_nil_of_length_eq_zero (Nat.le_zero.mp hl)
    subst h0
    rfl
  | succ n ih =>
    intro l hl hc
    cases hd : l.dropWhile (fun c => !isPyWhitespace c) with
    | nil =>
      have hdec := List.takeWhile_append_dropWhile (fun c => !isPyWhitespace c) l
      rw [hd, List.append_nil] at hdec
      have hall : ∀ c ∈ l, isPyWhitespace c = false := by
        intro c hcm
        have hc' : c ∈ l.takeWhile (fun c => !isPyWhitespace c) := by
          rw [hdec]
          exact hcm
        simpa using List.mem_takeWhile_imp hc'
      cases l with
      | nil => rfl
      | cons a as =>
        unfold collapseWs pySplit
        rw [splitBy_all_nonsep hall]
        simp [joinWith]
    | cons d ds =>
      have hdec : l.takeWhile (fun c => !isPyWhitespace c) ++ d :: ds = l := by
        rw [← hd]
        exact List.takeWhile_append_dropWhile _ l
      have hwd : isPyWhitespace d = true := by
        simpa using dropWhile_head_not hd
      have htws : ∀ c ∈ l.takeWhile (fun c => !isPyWhitespace c), isPyWhitespace c = false := by
        intro c hcm
        simpa using List.mem_takeWhile_imp hcm
      have htne : l.takeWhile (fun c => !isPyWhitespace c) ≠ [] := by
        intro h
        rw [h, List.nil_append] at hdec
        have hh : l.head? = some d := by
          rw [← hdec]
          rfl
        have hfalse := hc.headOk d (by rw [hh]; rfl)
        rw [hfalse] at hwd
        cases hwd
      cases hds : ds with
      | nil =>
        subst hds
        have hlast : l.getLast? = some d := by
          rw [← hdec]
          exact List.getLast?_concat _
        have hfalse := hc.lastOk d (by rw [hlast]; rfl)
        rw [hfalse] at hwd
        cases hwd
      | cons e es =>
        subst hds
        have hch := hc.pairs
        rw [← hdec, List.chain'_append] at hch
        obtain ⟨-, hch2, -⟩ := hch
        obtain ⟨hde, hch3⟩ := List.chain'_cons.mp hch2
        obtain ⟨hdsp, hews⟩ := hde hwd
        have hcanon' : Canon (e :: es) := by
          refine ⟨?_, ?_, hch3⟩
          · intro c hcm
            have h' : e = c := by simpa using hcm
            subst h'
            exact hews
          · intro c hcm
            apply hc.lastOk
            rw [← hdec, List.getLast?_append, List.getLast?_cons_cons]
            cases hg : (e :: es).getLast? with
            | none =>
              rw [List.getLast?_eq_none_iff] at hg
              cases hg
            | some x =>
              rw [hg] at hcm
              have h' : x = c := by simpa using hcm
              subst h'
              rfl
        have hterm : (e :: es).length ≤ n := by
          have h1 := congrArg List.length hdec
          simp only [List.length_append, List.length_cons] at h1
          have h2 : 0 < (l.takeWhile (fun c => !isPyWhitespace c)).length :=
            List.length_pos.mpr htne
          simp only [List.length_cons]
          omega
        have ih' := ih (e :: es) hterm hcanon'
        have hsplit : splitBy isPyWhitespace l
            = l.takeWhile (fun c => !isPyWhitespace c) :: splitBy isPyWhitespace (e :: es) := by
          conv_lhs => rw [← hdec]
          exact splitBy_append_sep htws hwd
        unfold collapseWs pySplit
        rw [hsplit, List.filter_cons]
        have h1 : (!(l.takeWhile (fun c => !isPyWhitespace c)).isEmpty) = true := by
          cases hT : l.takeWhile (fun c => !isPyWhitespace c) with
          | nil => exact absurd hT htne
          | cons x xs => rfl
        rw [if_pos h1]
        unfold collapseWs pySplit at ih'
        cases hu : (splitBy isPyWhitespace (e :: es)).filter (fun t => !t.isEmpty) with
        | nil =>
          have : pySplit (e :: es) = [] := by
            rw [pySplit]
            exact hu
          exact absurd this (pySplit_cons_ne_nil hews)
        | cons u us =>
          rw [hu] at ih'
          rw [show joinWith ' ' ((l.takeWhile fun c => !isPyWhitespace c) :: u :: us)
              = (l.takeWhile fun c => !isPyWhitespace c) ++ ' ' :: joinWith ' ' (u :: us)
              from rfl]
          rw [ih', ← hdsp]
          exact hdec

/-- `' '.join(s.split())` is a fixed point on canonical strings. -/
theorem canon_collapse_eq {l : List Char} (hc : Canon l) : collapseWs l = l :=
  canon_collapse_eq_aux l.length l (Nat.le_refl _) hc

theorem mem_subst_map {ch : Char} {l : List Char} {c : Char}
    (h : c ∈ l.map fun x => if x == ch then ' ' else x) : c = ' ' ∨ c ∈ l := by
  obtain ⟨a, ha, rfl⟩ := List.mem_map.mp h
  by_cases hx : a == ch
  · left
    simp [hx]
  · right
    simpa [hx] using ha

theorem mem_replaceWs {l : List Char} {c : Char} (h : c ∈ replaceWs l) :
    c = ' ' ∨ c ∈ l := by
  unfold replaceWs at h
  rcases mem_subst_map h with h1 | h1
  · exact Or.inl h1
  rcases mem_subst_map h1 with h2 | h2
  · exact Or.inl h2
  rcases mem_subst_map h2 with h3 | h3
  · exact Or.inl h3
  · exact Or.inr h3

theorem map_eq_self_of {l : List Char} {f : Char → Char} (h : ∀ a ∈ l, f a = a) :
    l.map f = l := by
  induction l with
  | nil => rfl
  | cons a as ih =>
    rw [List.map_cons, h a (List.mem_cons_self a as),
      ih fun b hb => h b (List.mem_cons_of_mem a hb)]

theorem printable_not_ctrl {a : Char} (h : isPrintableAscii a = true) :
    (a == '\n') = false ∧ (a == '\r') = false ∧ (a == '\t') = false := by
  refine ⟨?_, ?_, ?_⟩ <;> refine beq_eq_false_iff_ne.mpr ?_ <;> intro he <;>
    subst he <;> exact absurd h (by decide)

theorem replaceWs_eq_self {l : List Char} (h : ∀ c ∈ l, isPrintableAscii c = true) :
    replaceWs l = l := by
  unfold replaceWs
  have e1 : (l.map fun c => if c == '\n' then ' ' else c) = l :=
    map_eq_self_of fun a ha => by simp [(printable_not_ctrl (h a ha)).1]
  rw [e1]
  have e2 : (l.map fun c => if c == '\r' then ' ' else c) = l :=
    map_eq_self_of fun a ha => by simp [(printable_not_ctrl (h a ha)).2.1]
  rw [e2]
  exact map_eq_self_of fun a ha => by simp [(printable_not_ctrl (h a ha)).2.2]

theorem sanitize_eq_of_ne_nil {l : List Char} (h : l ≠ []) :
    sanitize_metadata_value l =
      if (collapseWs (replaceWs (filterPrintable l))).length > 250
      then (collapseWs (replaceWs (filterPrintable l))).take 247 ++ ['.', '.', '.']
      else collapseWs (replaceWs (filterPrintable l)) := by
  have h' : l.isEmpty = false := by
    cases l with
    | nil => exact absurd rfl h
    | cons a as => rfl
  unfold sanitize_metadata_value
  rw [h']
  rfl

theorem sanitize_chars {l : List Char} {c : Char} (h : c ∈ sanitize_metadata_value l) :
    isPrintableAscii c = true := by
  by_cases hl : l = []
  · subst hl
    simp [sanitize_metadata_value] at h
  · rw [sanitize_eq_of_ne_nil hl] at h
    have hmemw : ∀ x ∈ collapseWs (replaceWs (filterPrintable l)),
        isPrintableAscii x = true := by
      intro x hx
      rcases mem_collapseWs hx with rfl | hx2
      · decide
      rcases mem_replaceWs hx2 with rfl | hx3
      · decide
      · exact (List.mem_filter.mp hx3).2
    by_cases hlen : (collapseWs (replaceWs (filterPrintable l))).length > 250
    · rw [if_pos hlen] at h
      rcases List.mem_append.mp h with h1 | h1
      · exact hmemw c (List.take_subset _ _ h1)
      · have : c = '.' := by simpa using h1
        subst this
        decide
    · rw [if_neg hlen] at h
      exact hmemw c h

theorem canon_truncate {w : List Char} (hc : Canon w) (hlen : 248 ≤ w.length) :
    Canon (w.take 247 ++ ['.', '.', '.']) := by
  have hA : w.take 247 ≠ [] := by
    cases hw : w with
    | nil =>
      rw [hw] at hlen
      simp at hlen
    | cons a as =>
      intro hcontra
      simp [List.take_succ_cons] at hcontra
  have hws_space : ∀ c ∈ w, isPyWhitespace c = true → c = ' ' :=
    ws_eq_space_of_chain hc.pairs hc.lastOk
  refine ⟨?_, ?_, ?_⟩
  · intro c hcm
    rw [List.head?_append] at hcm
    cases hA' : w.take 247 with
    | nil => exact absurd hA' hA
    | cons a as =>
      rw [hA'] at hcm
      have h' : a = c := by simpa using hcm
      subst h'
      apply hc.headOk
      have ht := List.head?_take (l := w) (n := 247)
      rw [hA'] at ht
      simp at ht
      rw [← ht]
      rfl
  · intro c hcm
    rw [List.getLast?_append] at hcm
    have hg : (['.', '.', '.'] : List Char).getLast? = some '.' := rfl
    rw [hg] at hcm
    have h' : '.' = c := by simpa using hcm
    subst h'
    decide
  · refine List.chain'_append.mpr ⟨hc.pairs.take 247, ?_, ?_⟩
    · refine List.chain'_cons.mpr ⟨?_, List.chain'_cons.mpr ⟨?_, List.chain'_singleton _⟩⟩ <;>
        exact fun h => absurd h (by decide)
    · intro x hx y hy
      have hy' : '.' = y := by simpa using hy
      subst hy'
      intro hxws
      exact ⟨hws_space x (List.take_subset _ _ (mem_of_getLast?_mem hx)) hxws, by decide⟩

theorem canon_sanitize (l : List Char) : Canon (sanitize_metadata_value l) := by
  by_cases hl : l = []
  · subst hl
    exact canon_nil
  · rw [sanitize_eq_of_ne_nil hl]
    have hcw : Canon (collapseWs (replaceWs (filterPrintable l))) := canon_collapseWs _
    by_cases hlen : (collapseWs (replaceWs (filterPrintable l))).length > 250
    · rw [if_pos hlen]
      exact canon_truncate hcw (by omega)
    · rw [if_neg hlen]
      exact hcw

theorem sanitize_length_le (l : List Char) : (sanitize_metadata_value l).length ≤ 250 := by
  by_cases hl : l = []
  · subst hl
    simp [sanitize_metadata_value]
  · rw [sanitize_eq_of_ne_nil hl]
    by_cases hlen : (collapseWs (replaceWs (filterPrintable l))).length > 250
    · rw [if_pos hlen, List.length_append]
      have h1 : ((collapseWs (replaceWs (filterPrintable l))).take 247).length ≤ 247 :=
        List.length_take_le _ _
      simp only [List.length_cons, List.length_nil]
      omega
    · rw [if_neg hlen]
      omega

theorem sanitize_fixed {r : List Char} (h1 : filterPrintable r = r) (h2 : replaceWs r = r)
    (h3 : collapseWs r = r) (h4 : r.length ≤ 250) : sanitize_metadata_value r = r := by
  by_cases hr : r = []
  · subst hr
    rfl
  · rw [sanitize_eq_of_ne_nil hr, h1, h2, h3, if_neg (by omega)]

/-- C7: `sanitize_metadata_value` is idempotent on every string. -/
theorem sanitize_idempotent (l : List Char) :
    sanitize_metadata_value (sanitize_metadata_value l) = sanitize_metadata_value l := by
  have hchars : ∀ c ∈ sanitize_metadata_value l, isPrintableAscii c = true :=
    fun c hc => sanitize_chars hc
  refine sanitize_fixed ?_ ?_ ?_ (sanitize_length_le l)
  · exact List.filter_eq_self.mpr hchars
  · exact replaceWs_eq_self hchars
  · exact canon_collapse_eq (canon_sanitize l)

/-- C8: every character of `sanitize_metadata_value s` has ordinal in the
printable-ASCII range `[32, 126]`. -/
theorem sanitize_printable (l : List Char) (c : Char)
    (h : c ∈ sanitize_metadata_value l) : 32 ≤ c.toNat ∧ c.toNat ≤ 126 := by
  have hp := sanitize_chars h
  simp [isPrintableAscii] at hp
  omega

/-- Witness for C8 at a concrete input and output character. -/
theorem sanitize_printable_witness : 32 ≤ 'a'.toNat ∧ 'a'.toNat ≤ 126 :=
  sanitize_printable ['a'] 'a' (by decide)

/-- C4 amended: the sanitized value never exceeds 250 characters, and whenever
the sanitized (printable-filtered, whitespace-collapsed) value — not the raw
input — exceeds 250 characters, the result has length exactly 250 and ends
with the `"..."` marker. -/
theorem sanitize_truncation (s : List Char) :
    (sanitize_metadata_value s).length ≤ 250 ∧
    (250 < (collapseWs (replaceWs (filterPrintable s))).length →
      (sanitize_metadata_value s).length = 250 ∧
      List.isSuffixOf ['.', '.', '.'] (sanitize_metadata_value s) = true) := by
  refine ⟨sanitize_length_le s, ?_⟩
  intro h
  have hs : s ≠ [] := by
    intro h0
    subst h0
    exact absurd h (by decide)
  rw [sanitize_eq_of_ne_nil hs, if_pos (by omega)]
  constructor
  · rw [List.length_append, List.length_take]
    simp only [List.length_cons, List.length_nil]
    omega
  · rw [List.isSuffixOf_iff_suffix]
    exact List.suffix_append _ _
